import Mathlib

/-!
Shallow embedding of `src/protocol.py` (Mashharawi/talko): the dataclass-based
JSON serialization engine (`_Serializable.to_json`, `_Serializable.from_json`,
`_parse_field`) together with the protocol record types declared in that file.

Python runtime values are modelled by `PyVal`: JSON primitives, lists, dicts
(association lists with string keys) and dataclass instances (`vrec`, tagged
with their class).  Python exceptions raised during decoding are modelled by
`PyErr`: `KeyError(name)` from `json[field.name]` on a dict missing `name`,
`AttributeError` from accessing a missing attribute (`from_json` on a
non-dataclass type, or `__args__` on a non-generic type), and `TypeError` from
indexing a non-dict with a string key.
-/

/-- The record (dataclass) types declared in protocol.py. -/
inductive RecordTy where
  | broadcastRequest
  | user
  | chat
  | message
  | insertUserRequest
  | insertUserResponse
  | getChatsRequest
  | getChatsResponse
  | insertChatRequest
  | insertChatResponse
  | getParticipantsRequest
  | getParticipantsResponse
  | getMessagesRequest
  | getMessagesResponse
  | insertMessageRequest
  | insertMessageResponse
deriving DecidableEq

/-- Declared field types in protocol.py: `int`, `str`, a dataclass type, or
`List[...]` of one of these. -/
inductive FieldTy where
  | int : FieldTy
  | str : FieldTy
  | rcd : RecordTy → FieldTy
  | seq : FieldTy → FieldTy
deriving DecidableEq

/-- Python runtime values relevant to the serialization engine. -/
inductive PyVal where
  | vint : Int → PyVal
  | vstr : String → PyVal
  | vbool : Bool → PyVal
  | vlist : List PyVal → PyVal
  | vdict : List (String × PyVal) → PyVal
  | vrec : RecordTy → List (String × PyVal) → PyVal

/-- Python exceptions that the decode path can raise. -/
inductive PyErr where
  | keyError : String → PyErr
  | attributeError : String → PyErr
  | typeError : PyErr
deriving DecidableEq

/-- `dataclasses.fields(cls)`: the declared `(name, type)` pairs of each record
type, in declaration order, exactly as written in protocol.py. -/
def fields : RecordTy → List (String × FieldTy)
  | .broadcastRequest =>
      [("chat_id", .int), ("user_id", .int), ("user_name", .str),
       ("message_text", .str)]
  | .user => [("user_id", .int), ("user_name", .str)]
  | .chat => [("chat_id", .int), ("chat_name", .str)]
  | .message =>
      [("message_id", .int), ("chat_id", .int), ("user_id", .int),
       ("message_text", .str), ("message_ts", .int)]
  | .insertUserRequest => [("user_name", .str)]
  | .insertUserResponse => [("user_id", .int)]
  | .getChatsRequest => [("user_id", .int)]
  | .getChatsResponse => [("chats", .seq (.rcd .chat))]
  | .insertChatRequest => [("chat_name", .str), ("user_ids", .seq .int)]
  | .insertChatResponse => [("chat_id", .int)]
  | .getParticipantsRequest => [("chat_id", .int)]
  | .getParticipantsResponse => [("users", .seq (.rcd .user))]
  | .getMessagesRequest => [("chat_id", .int)]
  | .getMessagesResponse => [("messages", .seq (.rcd .message))]
  | .insertMessageRequest =>
      [("chat_id", .int), ("user_id", .int), ("message_text", .str),
       ("message_timestamp", .int)]
  | .insertMessageResponse => [("message_id", .int)]

mutual

/-- `_Serializable.to_json`, i.e. `dataclasses.asdict(self)`: recursively turn
dataclass instances into dicts; recurse into lists and dicts; primitives pass
through unchanged. -/
def to_json : PyVal → PyVal
  | .vint n => .vint n
  | .vstr s => .vstr s
  | .vbool b => .vbool b
  | .vlist vs => .vlist (to_json_list vs)
  | .vdict kvs => .vdict (to_json_kvs kvs)
  | .vrec _ flds => .vdict (to_json_kvs flds)

/-- `asdict` recursion over the elements of a list. -/
def to_json_list : List PyVal → List PyVal
  | [] => []
  | v :: vs => to_json v :: to_json_list vs

/-- `asdict` recursion over the entries of a dict / the fields of a dataclass. -/
def to_json_kvs : List (String × PyVal) → List (String × PyVal)
  | [] => []
  | (k, v) :: kvs => (k, to_json v) :: to_json_kvs kvs

end

/-- First-match lookup in an association list (Python dict lookup; dict keys
are unique, so first-match agrees with dict semantics). -/
def lookupKV : List (String × PyVal) → String → Option PyVal
  | [], _ => none
  | (k, v) :: kvs, name => if k = name then some v else lookupKV kvs name

/-- `json[name]`: on a dict, return the entry or raise `KeyError(name)`;
string-indexing any other value raises `TypeError`. -/
def getItem : PyVal → String → Except PyErr PyVal
  | .vdict kvs, name =>
      match lookupKV kvs name with
      | some v => .ok v
      | none => .error (.keyError name)
  | .vint _, _ => .error .typeError
  | .vstr _, _ => .error .typeError
  | .vbool _, _ => .error .typeError
  | .vlist _, _ => .error .typeError
  | .vrec _ _, _ => .error .typeError

/-- Termination rank of a record type.  The schema in protocol.py is not
recursive (records nest at most one level, through sequences), so the decode
recursion depth is bounded by the declared types alone; these constants make
that bound explicit.  They play no role in the semantics. -/
def recRank : RecordTy → Nat
  | .getChatsResponse => 12
  | .getParticipantsResponse => 12
  | .getMessagesResponse => 12
  | _ => 7

/-- Termination rank of a declared field type. -/
def tyRank : FieldTy → Nat
  | .int => 0
  | .str => 0
  | .rcd rt => recRank rt + 1
  | .seq t => tyRank t + 1

/-- Termination rank of a list of declared fields. -/
def fldsRank (flds : List (String × FieldTy)) : Nat :=
  flds.foldr (fun p acc => max (tyRank p.2 + 1) acc) 0

theorem fields_rank_lt (rt : RecordTy) :
    fldsRank (fields rt) + (fields rt).length < recRank rt := by
  cases rt <;> decide

theorem fldsRank_head_lt (n : String) (t : FieldTy)
    (rest : List (String × FieldTy)) :
    tyRank t < fldsRank ((n, t) :: rest) + ((n, t) :: rest).length := by
  simp only [fldsRank, List.foldr, List.length_cons]
  omega

theorem fldsRank_rest_lt (n : String) (t : FieldTy)
    (rest : List (String × FieldTy)) :
    fldsRank rest + rest.length <
      fldsRank ((n, t) :: rest) + ((n, t) :: rest).length := by
  simp only [fldsRank, List.foldr, List.length_cons]
  omega

mutual

/-- `_parse_field(type_, value)`:
`return type_.from_json(value) if isinstance(value, dict) else value`.
Only an actual dict is recursed into; for a dict against a non-dataclass
declared type (`int`, `str`, `List[...]`) the attribute access
`type_.from_json` raises `AttributeError`; any non-dict value is returned
unchanged. -/
def parse_field : FieldTy → PyVal → Except PyErr PyVal
  | .rcd rt, .vdict kvs => from_json rt (.vdict kvs)
  | .int, .vdict _ => .error (.attributeError "from_json")
  | .str, .vdict _ => .error (.attributeError "from_json")
  | .seq _, .vdict _ => .error (.attributeError "from_json")
  | _, .vint n => .ok (.vint n)
  | _, .vstr s => .ok (.vstr s)
  | _, .vbool b => .ok (.vbool b)
  | _, .vlist vs => .ok (.vlist vs)
  | _, .vrec rt flds => .ok (.vrec rt flds)
termination_by t v => (tyRank t, sizeOf v, 0)
decreasing_by
  all_goals first
    | decreasing_tactic
    | (simp_wf; apply Prod.Lex.left; simp only [tyRank]; omega)

/-- The list comprehension `[_parse_field(type_, v) for v in value]`. -/
def parse_elems : FieldTy → List PyVal → Except PyErr (List PyVal)
  | _, [] => .ok []
  | t, v :: vs =>
      match parse_field t v with
      | .error e => .error e
      | .ok w =>
          match parse_elems t vs with
          | .error e => .error e
          | .ok ws => .ok (w :: ws)
termination_by t vs => (tyRank t, sizeOf vs, 1)

/-- The per-field body of the `from_json` loop: if the wire value is a list,
take `type_.__args__[0]` (raising `AttributeError` when the declared type is
not `List[...]`) and parse each element; otherwise call `_parse_field`. -/
def field_value : FieldTy → PyVal → Except PyErr PyVal
  | t, .vlist vs =>
      match t with
      | .seq et =>
          match parse_elems et vs with
          | .error e => .error e
          | .ok ws => .ok (.vlist ws)
      | .int => .error (.attributeError "args")
      | .str => .error (.attributeError "args")
      | .rcd _ => .error (.attributeError "args")
  | t, .vint n => parse_field t (.vint n)
  | t, .vstr s => parse_field t (.vstr s)
  | t, .vbool b => parse_field t (.vbool b)
  | t, .vdict kvs => parse_field t (.vdict kvs)
  | t, .vrec rt flds => parse_field t (.vrec rt flds)
termination_by t v => (tyRank t, sizeOf v, 3)
decreasing_by
  all_goals first
    | decreasing_tactic
    | (simp_wf; apply Prod.Lex.left; simp only [tyRank]; omega)

/-- The `for field in dataclasses.fields(cls)` loop of `from_json`: for each
declared field in declaration order, look up `json[field.name]` and compute
the field's decoded value; the first raised exception aborts the loop. -/
def decode_fields :
    List (String × FieldTy) → PyVal → Except PyErr (List (String × PyVal))
  | [], _ => .ok []
  | (name, t) :: rest, json =>
      match getItem json name with
      | .error e => .error e
      | .ok value =>
          match field_value t value with
          | .error e => .error e
          | .ok w =>
              match decode_fields rest json with
              | .error e => .error e
              | .ok ws => .ok ((name, w) :: ws)
termination_by flds json => (fldsRank flds + flds.length, sizeOf json, 2)
decreasing_by
  all_goals first
    | decreasing_tactic
    | (simp_wf; apply Prod.Lex.left; apply fldsRank_head_lt)
    | (simp_wf; apply Prod.Lex.left; apply fldsRank_rest_lt)

/-- `_Serializable.from_json(cls, json)`: decode every declared field from the
wire mapping and construct `cls(**kwargs)` (dataclass construction performs no
runtime type check, so it always succeeds once every field resolved). -/
def from_json (rt : RecordTy) (json : PyVal) : Except PyErr PyVal :=
  match decode_fields (fields rt) json with
  | .error e => .error e
  | .ok kvs => .ok (.vrec rt kvs)
termination_by (recRank rt, sizeOf json, 4)
decreasing_by
  first
    | decreasing_tactic
    | (apply Prod.Lex.left; exact fields_rank_lt rt)

end

mutual

/-- A pure JSON wire value: a tree of dicts, lists, strings, numbers and
booleans, with no dataclass instance inside. -/
def isWire : PyVal → Bool
  | .vint _ => true
  | .vstr _ => true
  | .vbool _ => true
  | .vlist vs => isWireList vs
  | .vdict kvs => isWireKVs kvs
  | .vrec _ _ => false

/-- `isWire` over the elements of a list. -/
def isWireList : List PyVal → Bool
  | [] => true
  | v :: vs => isWire v && isWireList vs

/-- `isWire` over the values of a dict. -/
def isWireKVs : List (String × PyVal) → Bool
  | [] => true
  | (_, v) :: kvs => isWire v && isWireKVs kvs

end

mutual

/-- A validly-constructed value of a declared field type: the field holds a
value of its declared type (`int`/`str` primitives, a validly-constructed
instance of a nested record type, or a list of valid element values). -/
inductive ValidField : FieldTy → PyVal → Prop
  | vint (n : Int) : ValidField .int (.vint n)
  | vstr (s : String) : ValidField .str (.vstr s)
  | vrecord (rt : RecordTy) (flds : List (String × PyVal)) :
      ValidFields (fields rt) flds → ValidField (.rcd rt) (.vrec rt flds)
  | vseq (t : FieldTy) (vs : List PyVal) :
      ValidSeq t vs → ValidField (.seq t) (.vlist vs)

/-- Every element of the list is a valid value of the element type. -/
inductive ValidSeq : FieldTy → List PyVal → Prop
  | nil (t : FieldTy) : ValidSeq t []
  | cons (t : FieldTy) (v : PyVal) (vs : List PyVal) :
      ValidField t v → ValidSeq t vs → ValidSeq t (v :: vs)

/-- The field assignments of a record instance match the declared fields
positionally: same names in declaration order, each value valid for its
declared type. -/
inductive ValidFields : List (String × FieldTy) → List (String × PyVal) → Prop
  | nil : ValidFields [] []
  | cons (n : String) (t : FieldTy) (v : PyVal)
      (fts : List (String × FieldTy)) (fvs : List (String × PyVal)) :
      ValidField t v → ValidFields fts fvs →
      ValidFields ((n, t) :: fts) ((n, v) :: fvs)

end

/-- A validly-constructed instance of record type `rt`. -/
def ValidRec (rt : RecordTy) (v : PyVal) : Prop := ValidField (.rcd rt) v

/-- Declared type is a primitive (`int` or `str`). -/
def primTy : FieldTy → Bool
  | .int => true
  | .str => true
  | .rcd _ => false
  | .seq _ => false

/-- A record type all of whose declared fields are primitive. -/
def flatRec (rt : RecordTy) : Bool := (fields rt).all (fun p => primTy p.2)

/-- Element type occurring inside a declared sequence type in this schema:
a primitive or a flat record. -/
def elemOk : FieldTy → Bool
  | .int => true
  | .str => true
  | .rcd rt => flatRec rt
  | .seq _ => false

/-- Shape of every declared field type in this schema: a primitive, a flat
record, or a sequence of these (protocol.py nests records one level at most). -/
def tyOk : FieldTy → Bool
  | .int => true
  | .str => true
  | .rcd rt => flatRec rt
  | .seq t => elemOk t

theorem fields_tyOk (rt : RecordTy) : ∀ p ∈ fields rt, tyOk p.2 = true := by
  cases rt <;> decide

theorem fields_names_nodup (rt : RecordTy) :
    ((fields rt).map Prod.fst).Nodup := by
  cases rt <;> decide

theorem ValidFields_names {fts : List (String × FieldTy)}
    {fvs : List (String × PyVal)} (h : ValidFields fts fvs) :
    fts.map Prod.fst = fvs.map Prod.fst := by
  induction fts generalizing fvs with
  | nil => cases h; rfl
  | cons p fts ih =>
      obtain ⟨n, t⟩ := p
      cases h with
      | cons _ _ v _ fvs hv hfs => simp [ih hfs]

theorem ValidFields_zip {fts : List (String × FieldTy)}
    {fvs : List (String × PyVal)} (h : ValidFields fts fvs) :
    ∀ p ∈ fts.zip fvs, p.1.1 = p.2.1 ∧ ValidField p.1.2 p.2.2 := by
  induction fts generalizing fvs with
  | nil => cases h; intro p hp; simp at hp
  | cons p fts ih =>
      obtain ⟨n, t⟩ := p
      cases h with
      | cons _ _ v _ fvs hv hfs =>
          intro q hq
          rw [List.zip_cons_cons, List.mem_cons] at hq
          rcases hq with rfl | hq
          · exact ⟨rfl, hv⟩
          · exact ih hfs q hq

/-- Each record field entry `(n, v)` of `fvs` can be looked up in the wire
dict `kvs`, where it appears in encoded form. -/
inductive LookupsOk : List (String × PyVal) → List (String × PyVal) → Prop
  | nil (kvs : List (String × PyVal)) : LookupsOk [] kvs
  | cons (n : String) (v : PyVal) (fvs kvs : List (String × PyVal)) :
      lookupKV kvs n = some (to_json v) → LookupsOk fvs kvs →
      LookupsOk ((n, v) :: fvs) kvs

theorem LookupsOk_weaken {fvs kvs : List (String × PyVal)} (n : String)
    (w : PyVal) (h : LookupsOk fvs kvs) (hn : ∀ p ∈ fvs, p.1 ≠ n) :
    LookupsOk fvs ((n, w) :: kvs) := by
  induction h with
  | nil kvs => exact .nil _
  | cons m v fvs kvs hl hrest ih =>
      refine .cons m v _ _ ?_ (ih (fun p hp => hn p (List.mem_cons_of_mem _ hp)))
      rw [lookupKV, if_neg ?_]
      · exact hl
      · intro hEq
        exact (hn (m, v) (List.mem_cons_self _ _)) hEq.symm

theorem LookupsOk_self {fvs : List (String × PyVal)}
    (h : (fvs.map Prod.fst).Nodup) : LookupsOk fvs (to_json_kvs fvs) := by
  induction fvs with
  | nil => exact .nil _
  | cons p fvs ih =>
      obtain ⟨n, v⟩ := p
      rw [List.map_cons, List.nodup_cons] at h
      obtain ⟨hn, hnd⟩ := h
      rw [to_json_kvs]
      refine .cons n v _ _ ?_ ?_
      · rw [lookupKV, if_pos rfl]
      · refine LookupsOk_weaken n (to_json v) (ih hnd) ?_
        intro p hp hEq
        apply hn
        rw [← hEq]
        exact List.mem_map.mpr ⟨p, hp, rfl⟩

theorem decode_fields_of {fts : List (String × FieldTy)}
    {fvs kvs : List (String × PyVal)}
    (hvf : ValidFields fts fvs) (hlk : LookupsOk fvs kvs)
    (hfv : ∀ p ∈ fts.zip fvs, field_value p.1.2 (to_json p.2.2) = .ok p.2.2) :
    decode_fields fts (.vdict kvs) = .ok fvs := by
  induction fts generalizing fvs with
  | nil => cases hvf; simp [decode_fields]
  | cons p fts ih =>
      obtain ⟨n, t⟩ := p
      cases hvf with
      | cons _ _ v _ fvs hv hfs =>
          cases hlk with
          | cons _ _ _ _ hl hlrest =>
              have h1 : getItem (.vdict kvs) n = .ok (to_json v) := by
                simp only [getItem]
                rw [hl]
              have h2 : field_value t (to_json v) = .ok v :=
                hfv ((n, t), (n, v)) (by rw [List.zip_cons_cons]; exact List.mem_cons_self _ _)
              have h3 : decode_fields fts (.vdict kvs) = .ok fvs :=
                ih hfs hlrest
                  (fun q hq => hfv q (by rw [List.zip_cons_cons]; exact List.mem_cons_of_mem _ hq))
              simp [decode_fields, h1, h2, h3]

theorem from_json_of {rt : RecordTy} {flds : List (String × PyVal)}
    (hvf : ValidFields (fields rt) flds)
    (hfv : ∀ p ∈ (fields rt).zip flds,
      field_value p.1.2 (to_json p.2.2) = .ok p.2.2) :
    from_json rt (.vdict (to_json_kvs flds)) = .ok (.vrec rt flds) := by
  have hnd : (flds.map Prod.fst).Nodup := by
    rw [← ValidFields_names hvf]
    exact fields_names_nodup rt
  have h := decode_fields_of hvf (LookupsOk_self hnd) hfv
  simp [from_json, h]

theorem prim_to_json {t : FieldTy} {v : PyVal} (hp : primTy t = true)
    (hv : ValidField t v) : to_json v = v := by
  cases hv <;> simp_all [primTy, to_json]

theorem prim_field_value {t : FieldTy} {v : PyVal} (hp : primTy t = true)
    (hv : ValidField t v) : field_value t v = .ok v := by
  cases hv <;> simp_all [primTy, field_value, parse_field]

theorem from_json_flat {rt : RecordTy} {flds : List (String × PyVal)}
    (hf : flatRec rt = true) (hvf : ValidFields (fields rt) flds) :
    from_json rt (.vdict (to_json_kvs flds)) = .ok (.vrec rt flds) := by
  refine from_json_of hvf ?_
  intro p hp
  have hzip := ValidFields_zip hvf p hp
  have hmem := (List.mem_zip hp).1
  have hprim : primTy p.1.2 = true := by
    rw [flatRec] at hf
    exact List.all_eq_true.mp hf p.1 hmem
  rw [prim_to_json hprim hzip.2]
  exact prim_field_value hprim hzip.2

theorem parse_field_to_json {t : FieldTy} {v : PyVal} (he : elemOk t = true)
    (hv : ValidField t v) : parse_field t (to_json v) = .ok v := by
  cases hv with
  | vint n => simp [to_json, parse_field]
  | vstr s => simp [to_json, parse_field]
  | vrecord rt flds hflds =>
      have hf : flatRec rt = true := by simpa [elemOk] using he
      simp only [to_json]
      simp only [parse_field]
      exact from_json_flat hf hflds
  | vseq t vs hseq => simp [elemOk] at he

theorem parse_elems_to_json {t : FieldTy} {vs : List PyVal}
    (he : elemOk t = true) (hs : ValidSeq t vs) :
    parse_elems t (to_json_list vs) = .ok vs := by
  induction vs with
  | nil => simp [to_json_list, parse_elems]
  | cons v vs ih =>
      cases hs with
      | cons _ _ _ hv hrest =>
          rw [to_json_list]
          simp [parse_elems, parse_field_to_json he hv, ih hrest]

theorem field_value_to_json {t : FieldTy} {v : PyVal} (ht : tyOk t = true)
    (hv : ValidField t v) : field_value t (to_json v) = .ok v := by
  cases hv with
  | vint n => simp [to_json, field_value, parse_field]
  | vstr s => simp [to_json, field_value, parse_field]
  | vrecord rt flds hflds =>
      have hf : flatRec rt = true := by simpa [tyOk] using ht
      simp only [to_json, field_value, parse_field]
      exact from_json_flat hf hflds
  | vseq et vs hseq =>
      have he : elemOk et = true := by simpa [tyOk] using ht
      simp only [to_json, field_value]
      rw [parse_elems_to_json he hseq]

theorem from_json_to_json {rt : RecordTy} {flds : List (String × PyVal)}
    (hvf : ValidFields (fields rt) flds) :
    from_json rt (to_json (.vrec rt flds)) = .ok (.vrec rt flds) := by
  simp only [to_json]
  refine from_json_of hvf ?_
  intro p hp
  exact field_value_to_json (fields_tyOk rt p.1 (List.mem_zip hp).1)
    (ValidFields_zip hvf p hp).2

/-- Python `isinstance(value, dict)`. -/
def isDict : PyVal → Bool
  | .vdict _ => true
  | _ => false

/-- Python `isinstance(value, list)`. -/
def isList : PyVal → Bool
  | .vlist _ => true
  | _ => false

theorem to_json_kvs_names (fvs : List (String × PyVal)) :
    (to_json_kvs fvs).map Prod.fst = fvs.map Prod.fst := by
  induction fvs with
  | nil => rfl
  | cons p fvs ih =>
      obtain ⟨n, v⟩ := p
      rw [to_json_kvs, List.map_cons, List.map_cons, ih]

theorem to_json_list_map (vs : List PyVal) :
    to_json_list vs = vs.map to_json := by
  induction vs with
  | nil => rfl
  | cons v vs ih => rw [to_json_list, List.map_cons, ih]

/-- If every declared field before `(n, t)` resolves (its key is found and its
value decodes), and the lookup of `n` itself raises, the loop stops with that
exception. -/
theorem decode_fields_first_err (pre : List (String × FieldTy)) (n : String)
    (t : FieldTy) (post : List (String × FieldTy)) (json : PyVal) (e : PyErr)
    (hpre : ∀ p ∈ pre, ∃ v w, getItem json p.1 = .ok v ∧ field_value p.2 v = .ok w)
    (hn : getItem json n = .error e) :
    decode_fields (pre ++ (n, t) :: post) json = .error e := by
  induction pre with
  | nil =>
      rw [List.nil_append]
      simp [decode_fields, hn]
  | cons q pre ih =>
      obtain ⟨m, s⟩ := q
      obtain ⟨v, w, hg, hf⟩ := hpre (m, s) (List.mem_cons_self _ _)
      rw [List.cons_append]
      have hrest := ih (fun p hp => hpre p (List.mem_cons_of_mem _ hp))
      simp [decode_fields, hg, hf, hrest]

/-- If some declared field's key is absent from the wire dict, the decode loop
raises (with some exception, not necessarily the missing-key one). -/
theorem decode_fields_missing_fails (flds : List (String × FieldTy))
    (kvs : List (String × PyVal)) (n : String) (t : FieldTy)
    (hmem : (n, t) ∈ flds) (habs : lookupKV kvs n = none) :
    ∃ e, decode_fields flds (.vdict kvs) = .error e := by
  induction flds with
  | nil => simp at hmem
  | cons q rest ih =>
      obtain ⟨m, s⟩ := q
      rcases List.mem_cons.mp hmem with hEq | hmem'
      · injection hEq with h1 h2
        subst h1
        refine ⟨.keyError n, ?_⟩
        have hg : getItem (.vdict kvs) n = .error (.keyError n) := by
          simp only [getItem]
          rw [habs]
        simp [decode_fields, hg]
      · cases hg : getItem (.vdict kvs) m with
        | error e => exact ⟨e, by simp [decode_fields, hg]⟩
        | ok v =>
            cases hf : field_value s v with
            | error e => exact ⟨e, by simp [decode_fields, hg, hf]⟩
            | ok w =>
                obtain ⟨e, he⟩ := ih hmem'
                exact ⟨e, by simp [decode_fields, hg, hf, he]⟩

/-- Successful decode fully populates the record: every declared field name
was found in the wire value and decoded, positionally and in declaration
order. -/
theorem decode_fields_sound (flds : List (String × FieldTy)) (json : PyVal)
    (out : List (String × PyVal)) (h : decode_fields flds json = .ok out) :
    List.Forall₂
      (fun ft ov => ft.1 = ov.1 ∧
        ∃ v, getItem json ft.1 = .ok v ∧ field_value ft.2 v = .ok ov.2)
      flds out := by
  induction flds generalizing out with
  | nil =>
      simp only [decode_fields] at h
      injection h with h
      subst h
      exact .nil
  | cons p rest ih =>
      obtain ⟨n, t⟩ := p
      simp only [decode_fields] at h
      cases hg : getItem json n with
      | error e => simp [hg] at h
      | ok v =>
          simp only [hg] at h
          cases hf : field_value t v with
          | error e => simp [hf] at h
          | ok w =>
              simp only [hf] at h
              cases hr : decode_fields rest json with
              | error e => simp [hr] at h
              | ok ws =>
                  simp only [hr] at h
                  injection h with h
                  subst h
                  exact .cons ⟨rfl, v, hg, hf⟩ (ih ws hr)

/-- The decode loop reads the wire dict only through the declared field
names: dicts agreeing on those keys decode identically. -/
theorem decode_fields_agree (flds : List (String × FieldTy))
    (kvs1 kvs2 : List (String × PyVal))
    (hagree : ∀ n ∈ flds.map Prod.fst, lookupKV kvs1 n = lookupKV kvs2 n) :
    decode_fields flds (.vdict kvs1) = decode_fields flds (.vdict kvs2) := by
  induction flds with
  | nil => simp [decode_fields]
  | cons p rest ih =>
      obtain ⟨n, t⟩ := p
      have hg : getItem (.vdict kvs1) n = getItem (.vdict kvs2) n := by
        simp only [getItem]
        rw [hagree n (by simp)]
      have hrest := ih (fun m hm => hagree m (by simp [hm]))
      simp only [decode_fields]
      rw [hg, hrest]

/-- Element-wise soundness of sequence decoding: a successful [...]-decode
pairs input and output element lists positionally, in order. -/
theorem parse_elems_sound (t : FieldTy) (vs ws : List PyVal)
    (h : parse_elems t vs = .ok ws) :
    List.Forall₂ (fun v w => parse_field t v = .ok w) vs ws := by
  induction vs generalizing ws with
  | nil =>
      simp only [parse_elems] at h
      injection h with h
      subst h
      exact .nil
  | cons v vs ih =>
      simp only [parse_elems] at h
      cases hp : parse_field t v with
      | error e => simp [hp] at h
      | ok w =>
          simp only [hp] at h
          cases hr : parse_elems t vs with
          | error e => simp [hr] at h
          | ok ws2 =>
              simp only [hr] at h
              injection h with h
              subst h
              exact .cons hp (ih ws2 hr)

theorem isWireKVs_of (fvs : List (String × PyVal))
    (h : ∀ p ∈ fvs, isWire (to_json p.2) = true) :
    isWireKVs (to_json_kvs fvs) = true := by
  induction fvs with
  | nil => rfl
  | cons p fvs ih =>
      obtain ⟨n, v⟩ := p
      simp only [to_json_kvs, isWireKVs]
      rw [h (n, v) (List.mem_cons_self _ _),
          ih (fun q hq => h q (List.mem_cons_of_mem _ hq))]
      rfl

theorem isWireList_of (vs : List PyVal)
    (h : ∀ v ∈ vs, isWire (to_json v) = true) :
    isWireList (to_json_list vs) = true := by
  induction vs with
  | nil => rfl
  | cons v vs ih =>
      simp only [to_json_list, isWireList]
      rw [h v (List.mem_cons_self _ _),
          ih (fun w hw => h w (List.mem_cons_of_mem _ hw))]
      rfl

theorem prim_wire {t : FieldTy} {v : PyVal} (hp : primTy t = true)
    (hv : ValidField t v) : isWire (to_json v) = true := by
  cases hv <;> simp_all [primTy, to_json, isWire]

theorem flat_vals_wire {fts : List (String × FieldTy)}
    {fvs : List (String × PyVal)} (hvf : ValidFields fts fvs)
    (hflat : ∀ q ∈ fts, primTy q.2 = true) :
    ∀ p ∈ fvs, isWire (to_json p.2) = true := by
  induction fts generalizing fvs with
  | nil => cases hvf; intro p hp; simp at hp
  | cons q fts ih =>
      obtain ⟨n, t⟩ := q
      cases hvf with
      | cons _ _ v _ fvs hv hfs =>
          intro p hp
          rcases List.mem_cons.mp hp with rfl | hp'
          · exact prim_wire (hflat (n, t) (List.mem_cons_self _ _)) hv
          · exact ih hfs (fun q hq => hflat q (List.mem_cons_of_mem _ hq)) p hp'

theorem elem_wire {t : FieldTy} {v : PyVal} (he : elemOk t = true)
    (hv : ValidField t v) : isWire (to_json v) = true := by
  cases hv with
  | vint n => simp [to_json, isWire]
  | vstr s => simp [to_json, isWire]
  | vrecord rt flds hflds =>
      have hf : flatRec rt = true := by simpa [elemOk] using he
      have hflat : ∀ q ∈ fields rt, primTy q.2 = true := by
        rw [flatRec] at hf
        exact List.all_eq_true.mp hf
      simp only [to_json, isWire]
      exact isWireKVs_of flds (flat_vals_wire hflds hflat)
  | vseq t vs hseq => simp [elemOk] at he

theorem seq_vals_wire {t : FieldTy} {vs : List PyVal} (he : elemOk t = true)
    (hs : ValidSeq t vs) : ∀ v ∈ vs, isWire (to_json v) = true := by
  induction vs with
  | nil => intro v hv; simp at hv
  | cons v vs ih =>
      cases hs with
      | cons _ _ _ hv hrest =>
          intro w hw
          rcases List.mem_cons.mp hw with rfl | hw'
          · exact elem_wire he hv
          · exact ih hrest w hw'

theorem field_wire {t : FieldTy} {v : PyVal} (ht : tyOk t = true)
    (hv : ValidField t v) : isWire (to_json v) = true := by
  cases hv with
  | vint n => simp [to_json, isWire]
  | vstr s => simp [to_json, isWire]
  | vrecord rt flds hflds =>
      have hf : flatRec rt = true := by simpa [tyOk] using ht
      have hflat : ∀ q ∈ fields rt, primTy q.2 = true := by
        rw [flatRec] at hf
        exact List.all_eq_true.mp hf
      simp only [to_json, isWire]
      exact isWireKVs_of flds (flat_vals_wire hflds hflat)
  | vseq et vs hseq =>
      have he : elemOk et = true := by simpa [tyOk] using ht
      simp only [to_json, isWire]
      exact isWireList_of vs (seq_vals_wire he hseq)

theorem vals_wire {fts : List (String × FieldTy)}
    {fvs : List (String × PyVal)} (hvf : ValidFields fts fvs)
    (hty : ∀ q ∈ fts, tyOk q.2 = true) :
    ∀ p ∈ fvs, isWire (to_json p.2) = true := by
  induction fts generalizing fvs with
  | nil => cases hvf; intro p hp; simp at hp
  | cons q fts ih =>
      obtain ⟨n, t⟩ := q
      cases hvf with
      | cons _ _ v _ fvs hv hfs =>
          intro p hp
          rcases List.mem_cons.mp hp with rfl | hp'
          · exact field_wire (hty (n, t) (List.mem_cons_self _ _)) hv
          · exact ih hfs (fun q hq => hty q (List.mem_cons_of_mem _ hq)) p hp'

/-- C1: For every declared record type R (all sixteen dataclasses of
protocol.py) and every validly-constructed instance r of R whose fields
respect their declared types, decoding the encoding of r as R returns a
record structurally equal to r: `from_json R (to_json r) = .ok r`. -/
theorem claim_C1 (rt : RecordTy) (r : PyVal) (hv : ValidRec rt r) :
    from_json rt (to_json r) = .ok r := by
  cases hv with
  | vrecord _ flds hflds => exact from_json_to_json hflds

theorem claim_C1_witness :
    from_json .getChatsResponse (to_json (.vrec .getChatsResponse
      [("chats", .vlist
        [.vrec .chat [("chat_id", .vint 1), ("chat_name", .vstr "A")],
         .vrec .chat [("chat_id", .vint 2), ("chat_name", .vstr "B")]])]))
    = .ok (.vrec .getChatsResponse
      [("chats", .vlist
        [.vrec .chat [("chat_id", .vint 1), ("chat_name", .vstr "A")],
         .vrec .chat [("chat_id", .vint 2), ("chat_name", .vstr "B")]])]) :=
  claim_C1 _ _ (by repeat constructor)

/-- C2 (amended): decoding a wire mapping in which a sequence-declared field
holds a non-sequence, non-mapping wire value does not fail: the value is
stored in the resulting record as-is, so decoding
`{"chats": "not-an-array"}` as GetChatsResponse succeeds and returns a
GetChatsResponse whose `chats` field is the string itself; no
ShapeMismatchError is raised. -/
theorem claim_C2 (s : String) :
    from_json .getChatsResponse (.vdict [("chats", .vstr s)])
    = .ok (.vrec .getChatsResponse [("chats", .vstr s)]) := by
  simp [from_json, fields, decode_fields, field_value, parse_field, getItem,
    lookupKV]

/-- C2 counterexample: decoding `{"chats": "not-an-array"}` as
GetChatsResponse returns a record (with the string stored in the `chats`
field) instead of failing with a ShapeMismatchError as the claim states. -/
theorem claim_C2_counterexample :
    from_json .getChatsResponse (.vdict [("chats", .vstr "not-an-array")])
    = .ok (.vrec .getChatsResponse [("chats", .vstr "not-an-array")]) := by
  simp [from_json, fields, decode_fields, field_value, parse_field, getItem,
    lookupKV]

/-- C3 (amended): when a wire mapping lacks a key for some declared field,
decode fails as a whole (with some exception, which is the missing-key error
naming the field only when no present field declared earlier fails first);
in particular decoding the empty mapping as InsertUserResponse fails with
the missing-key error naming `user_id`. -/
theorem claim_C3 :
    (∀ (rt : RecordTy) (kvs : List (String × PyVal)) (n : String)
      (t : FieldTy), (n, t) ∈ fields rt → lookupKV kvs n = none →
      ∃ e, from_json rt (.vdict kvs) = .error e) ∧
    from_json .insertUserResponse (.vdict [])
      = .error (.keyError "user_id") := by
  constructor
  · intro rt kvs n t hmem habs
    obtain ⟨e, he⟩ := decode_fields_missing_fails (fields rt) kvs n t hmem habs
    exact ⟨e, by simp [from_json, he]⟩
  · simp [from_json, fields, decode_fields, getItem, lookupKV]

theorem claim_C3_witness :
    ∃ e, from_json .getChatsRequest (.vdict []) = .error e :=
  claim_C3.1 .getChatsRequest [] "user_id" .int (by decide) rfl

/-- C3 counterexample: the wire mapping `{"chat_name": {}}` for
InsertChatRequest lacks the declared field `user_ids`, yet decode fails with
an AttributeError from the malformed `chat_name` value, not with a
missing-field error naming the absent field. -/
theorem claim_C3_counterexample :
    from_json .insertChatRequest (.vdict [("chat_name", .vdict [])])
    = .error (.attributeError "from_json") := by
  simp [from_json, fields, decode_fields, field_value, parse_field, getItem,
    lookupKV]

/-- C4: during decode, a field's wire value is recursed into as a nested
record exactly when it is an actual mapping: any non-mapping, non-sequence
wire value is used as-is (even when the declared type is a record type, no
coercion happens), and a mapping at a record-declared field is decoded
recursively. -/
theorem claim_C4 (t : FieldTy) (v : PyVal) (hd : isDict v = false)
    (hl : isList v = false) :
    field_value t v = .ok v ∧ parse_field t v = .ok v ∧
    ∀ (rt : RecordTy) (kvs : List (String × PyVal)),
      parse_field (.rcd rt) (.vdict kvs) = from_json rt (.vdict kvs) := by
  refine ⟨?_, ?_, fun rt kvs => by simp [parse_field]⟩
  · cases v <;> simp_all [isDict, isList, field_value, parse_field]
  · cases v <;> simp_all [isDict, isList, parse_field]

theorem claim_C4_witness :
    field_value (.rcd .chat) (.vint 7) = .ok (.vint 7) ∧
    parse_field (.rcd .chat) (.vint 7) = .ok (.vint 7) :=
  ⟨(claim_C4 (.rcd .chat) (.vint 7) rfl rfl).1,
   (claim_C4 (.rcd .chat) (.vint 7) rfl rfl).2.1⟩

/-- C5: decode ignores extra keys rather than rejecting them: the result
depends only on the entries at the declared field names (wire dicts that
agree on those keys decode identically), and in particular
`{"user_id": 5, "unexpected": true}` decodes as InsertUserResponse to
InsertUserResponse{user_id: 5}. -/
theorem claim_C5 :
    (∀ (rt : RecordTy) (kvs1 kvs2 : List (String × PyVal)),
      (∀ n ∈ (fields rt).map Prod.fst, lookupKV kvs1 n = lookupKV kvs2 n) →
      from_json rt (.vdict kvs1) = from_json rt (.vdict kvs2)) ∧
    from_json .insertUserResponse
      (.vdict [("user_id", .vint 5), ("unexpected", .vbool true)])
      = .ok (.vrec .insertUserResponse [("user_id", .vint 5)]) := by
  constructor
  · intro rt kvs1 kvs2 hagree
    have h := decode_fields_agree (fields rt) kvs1 kvs2 hagree
    simp [from_json, h]
  · simp [from_json, fields, decode_fields, field_value, parse_field, getItem,
      lookupKV]

theorem claim_C5_witness :
    from_json .insertUserResponse (.vdict [("user_id", .vint 5)])
    = from_json .insertUserResponse
        (.vdict [("user_id", .vint 5), ("unexpected", .vbool true)]) :=
  claim_C5.1 .insertUserResponse _ _ (by
    intro n hn
    simp [fields] at hn
    subst hn
    simp [lookupKV])

/-- C6: sequence order is preserved: encode maps `to_json` over list
elements in order, and a successful sequence decode pairs the wire elements
with the decoded elements positionally, in the same order, without
reordering. -/
theorem claim_C6 :
    (∀ vs : List PyVal, to_json_list vs = vs.map to_json) ∧
    (∀ (t : FieldTy) (vs ws : List PyVal), parse_elems t vs = .ok ws →
      List.Forall₂ (fun v w => parse_field t v = .ok w) vs ws) :=
  ⟨to_json_list_map, parse_elems_sound⟩

theorem claim_C6_witness :
    List.Forall₂ (fun v w => parse_field .int v = .ok w)
      [.vint 1, .vint 2] [.vint 1, .vint 2] :=
  claim_C6.2 .int [.vint 1, .vint 2] [.vint 1, .vint 2]
    (by simp [parse_elems, parse_field])

/-- C7: decode performs no piecemeal reconstruction: when it succeeds, the
returned value is a record of the target type whose field list pairs with
the declared fields one-to-one in declaration order, each field value
obtained by looking the field name up in the wire value and decoding it (so
no field is defaulted or dropped); any failure yields an error and no
record. -/
theorem claim_C7 (rt : RecordTy) (json : PyVal) (r : PyVal)
    (h : from_json rt json = .ok r) :
    ∃ out, r = .vrec rt out ∧
      List.Forall₂
        (fun ft ov => ft.1 = ov.1 ∧
          ∃ v, getItem json ft.1 = .ok v ∧ field_value ft.2 v = .ok ov.2)
        (fields rt) out := by
  simp only [from_json] at h
  cases hd : decode_fields (fields rt) json with
  | error e => simp [hd] at h
  | ok out =>
      simp only [hd] at h
      injection h with h
      exact ⟨out, h.symm, decode_fields_sound _ _ _ hd⟩

theorem claim_C7_witness :
    ∃ out, (PyVal.vrec .insertUserResponse [("user_id", .vint 5)])
        = .vrec .insertUserResponse out ∧
      List.Forall₂
        (fun ft ov => ft.1 = ov.1 ∧
          ∃ v, getItem (.vdict [("user_id", .vint 5)]) ft.1 = .ok v ∧
            field_value ft.2 v = .ok ov.2)
        (fields .insertUserResponse) out :=
  claim_C7 .insertUserResponse (.vdict [("user_id", .vint 5)]) _
    (by simp [from_json, fields, decode_fields, field_value, parse_field,
      getItem, lookupKV])

/-- C8: encode is total on validly-constructed records and returns a wire
value: for every declared record type and valid instance, `to_json` yields a
mapping (a pure JSON value with no dataclass inside) whose keys are exactly
the declared field names. -/
theorem claim_C8 (rt : RecordTy) (flds : List (String × PyVal))
    (hv : ValidFields (fields rt) flds) :
    to_json (.vrec rt flds) = .vdict (to_json_kvs flds) ∧
    isWire (to_json (.vrec rt flds)) = true ∧
    (to_json_kvs flds).map Prod.fst = (fields rt).map Prod.fst := by
  refine ⟨by simp [to_json], ?_, ?_⟩
  · simp only [to_json, isWire]
    exact isWireKVs_of flds (vals_wire hv (fields_tyOk rt))
  · rw [to_json_kvs_names]
    exact (ValidFields_names hv).symm

theorem claim_C8_witness :
    to_json (.vrec .insertChatRequest
        [("chat_name", .vstr "c"), ("user_ids", .vlist [.vint 1])])
      = .vdict (to_json_kvs
        [("chat_name", .vstr "c"), ("user_ids", .vlist [.vint 1])]) ∧
    isWire (to_json (.vrec .insertChatRequest
        [("chat_name", .vstr "c"), ("user_ids", .vlist [.vint 1])])) = true ∧
    (to_json_kvs
        [("chat_name", .vstr "c"), ("user_ids", .vlist [.vint 1])]).map
        Prod.fst
      = (fields .insertChatRequest).map Prod.fst :=
  claim_C8 .insertChatRequest _ (by repeat constructor)

/-- C9 (amended): when every declared field before `(n, t)` in declaration
order resolves successfully and the key `n` is absent from the wire mapping,
decode fails with the missing-key error naming `n`; thus when several fields
are missing and all earlier present fields decode cleanly, the earliest
missing field in declaration order is the one reported. -/
theorem claim_C9 (rt : RecordTy) (kvs : List (String × PyVal))
    (pre : List (String × FieldTy)) (n : String) (t : FieldTy)
    (post : List (String × FieldTy))
    (hsplit : fields rt = pre ++ (n, t) :: post)
    (hpre : ∀ p ∈ pre, ∃ v w, getItem (.vdict kvs) p.1 = .ok v ∧
      field_value p.2 v = .ok w)
    (habs : lookupKV kvs n = none) :
    from_json rt (.vdict kvs) = .error (.keyError n) := by
  have hg : getItem (.vdict kvs) n = .error (.keyError n) := by
    simp only [getItem]
    rw [habs]
  have h := decode_fields_first_err pre n t post (.vdict kvs) (.keyError n)
    hpre hg
  rw [← hsplit] at h
  simp [from_json, h]

theorem claim_C9_witness :
    from_json .insertMessageRequest (.vdict [("chat_id", .vint 1)])
    = .error (.keyError "user_id") :=
  claim_C9 .insertMessageRequest [("chat_id", .vint 1)]
    [("chat_id", .int)] "user_id" .int
    [("message_text", .str), ("message_timestamp", .int)]
    (by decide)
    (by
      intro p hp
      simp at hp
      subst hp
      exact ⟨.vint 1, .vint 1, by simp [getItem, lookupKV],
        by simp [field_value, parse_field]⟩)
    (by simp [lookupKV])

/-- C9 counterexample: the wire mapping `{"chat_id": {}}` for
InsertMessageRequest is missing several declared fields (`user_id`,
`message_text`, `message_timestamp`), yet decode fails with an
AttributeError raised while decoding the present malformed `chat_id` value,
not with an error naming the first missing field. -/
theorem claim_C9_counterexample :
    from_json .insertMessageRequest (.vdict [("chat_id", .vdict [])])
    = .error (.attributeError "from_json") := by
  simp [from_json, fields, decode_fields, field_value, parse_field, getItem,
    lookupKV]

/-- C10: a field declared with a primitive type whose wire value is a
mapping fails to decode: `_parse_field` attempts record-style decoding
(`type_.from_json`) on the mapping, which raises AttributeError for the
primitive types `int` and `str`; in particular `{"user_id": {}}` fails to
decode as InsertUserResponse. -/
theorem claim_C10 :
    (∀ kvs : List (String × PyVal),
      parse_field .int (.vdict kvs) = .error (.attributeError "from_json")) ∧
    (∀ kvs : List (String × PyVal),
      parse_field .str (.vdict kvs) = .error (.attributeError "from_json")) ∧
    from_json .insertUserResponse (.vdict [("user_id", .vdict [])])
      = .error (.attributeError "from_json") := by
  refine ⟨fun kvs => by simp [parse_field], fun kvs => by simp [parse_field],
    ?_⟩
  simp [from_json, fields, decode_fields, field_value, parse_field, getItem,
    lookupKV]
